import Mathlib

/-!
Shallow embedding of the `sketch-duplicates` crate (`src/lib.rs`): a probabilistic
sketch of 2-bit saturating counters used to detect duplicated byte buffers.

Machine integers are modelled as `Nat` with explicit `% 2 ^ 32` / `% 2 ^ 64`
where the source uses wrapping arithmetic.  The external `MetroHash128` hash is
modelled as an arbitrary function `mh : List Nat → Nat × Nat` from byte buffers
to the pair `(hash_a, hash_b)` of 64-bit values; every property proved here
holds for every such function, in particular for the real hash.  Fallible
operations (`panic`, index out of bounds, IO errors) are modelled with
`Option` / `Except`.
-/

set_option maxHeartbeats 1000000

namespace SketchDuplicates

/-- Bits of the `Word = u32` type of the source. -/
def WORD_BITS : Nat := 32

/-- Log2 of `WORD_BITS`, as in the source. -/
def WORD_LEN_BITS : Nat := 5

/-- Mask of the even (low counter) bits of a word, as in the source. -/
def WORD_MASK : Nat := 0x55555555

/-- Fuel-based population count; the fuel argument makes the recursion structural. -/
def countOnesAux : Nat → Nat → Nat
  | 0, _ => 0
  | f + 1, n => if n = 0 then 0 else n % 2 + countOnesAux f (n / 2)

/-- Population count of a natural number, mirroring `usize::count_ones`. -/
def countOnes (n : Nat) : Nat := countOnesAux n n

/-- Rust `usize::is_power_of_two`: exactly one bit set. -/
def isPowerOfTwo (n : Nat) : Bool := countOnes n == 1

/-- Fuel-based version of `next_power_of_two`. -/
def nextPowAux : Nat → Nat → Nat
  | 0, _ => 1
  | f + 1, n => if n ≤ 1 then 1 else 2 * nextPowAux f ((n + 1) / 2)

/-- Rust `usize::next_power_of_two`: least power of two that is `≥` the argument. -/
def nextPowerOfTwo (n : Nat) : Nat := nextPowAux n n

/-- The sketch: a probe count and a vector of 32-bit words holding 2-bit counters. -/
structure DuplicatesSketch where
  probes : Nat
  words : List Nat
deriving DecidableEq

/-- Embedding of `DuplicatesSketch::new`.  The `assert!(probes > 0)` panic is the
`none` case.  The word count follows the source literally: `size / 4`, then the
(inverted-looking) power-of-two branch. -/
def DuplicatesSketch.new (probes size : Nat) : Option DuplicatesSketch :=
  if 1 ≤ probes then
    some { probes := probes,
           words := List.replicate
             (if isPowerOfTwo (size / 4) then nextPowerOfTwo (size / 4) else size / 4) 0 }
  else none

/-- The 64-bit wrapping hash recurrence of `probe_iter`:
`hash = hash.wrapping_add((i as u64).wrapping_mul(hash_b))`, value at iteration `i`. -/
def probeHash (hashA hashB : Nat) : Nat → Nat
  | 0 => hashA % 2 ^ 64
  | i + 1 => (probeHash hashA hashB i + ((i + 1) * hashB) % 2 ^ 64) % 2 ^ 64

/-- Word index and bit index of one probe, as computed inside `probe_iter`. -/
def probePos (len hash : Nat) : Nat × Nat :=
  ((hash >>> (WORD_LEN_BITS - 1)) &&& (len - 1), (hash &&& (WORD_BITS / 2 - 1)) * 2)

/-- Embedding of `probe_iter`: the finite list of `(word_ix, bit_ix)` pairs. -/
def probeList (mh : List Nat → Nat × Nat) (s : DuplicatesSketch) (buf : List Nat) :
    List (Nat × Nat) :=
  (List.range s.probes).map fun i =>
    probePos s.words.length (probeHash (mh buf).1 (mh buf).2 i)

/-- One word update of `insert`:
`*word |= (*word & 1 << bit_ix).wrapping_add(1 << bit_ix)`. -/
def insertWord (w bit : Nat) : Nat :=
  w ||| (((w &&& (1 <<< bit)) + (1 <<< bit)) % 2 ^ 32)

/-- One word update of `merge`:
`*a |= *b | (*a & WORD_MASK).wrapping_add(*b & WORD_MASK)`. -/
def mergeWord (a b : Nat) : Nat :=
  a ||| (b ||| (((a &&& WORD_MASK) + (b &&& WORD_MASK)) % 2 ^ 32))

/-- The loop of `insert` over the probe list; `none` is the index-out-of-bounds panic. -/
def insertWords (words : List Nat) : List (Nat × Nat) → Option (List Nat)
  | [] => some words
  | p :: ps =>
    if p.1 < words.length then
      insertWords (words.set p.1 (insertWord (words.getD p.1 0) p.2)) ps
    else none

/-- The short-circuiting `all` loop of `has_duplicate`:
`self.words[word_ix] >> bit_ix & 0b11 > 1` for every probe. -/
def hasDupWords (words : List Nat) : List (Nat × Nat) → Option Bool
  | [] => some true
  | p :: ps =>
    if p.1 < words.length then
      if 1 < (words.getD p.1 0 >>> p.2) &&& 3 then hasDupWords words ps else some false
    else none

/-- Embedding of `DuplicatesSketch::insert`. -/
def DuplicatesSketch.insert (mh : List Nat → Nat × Nat) (s : DuplicatesSketch)
    (buf : List Nat) : Option DuplicatesSketch :=
  (insertWords s.words (probeList mh s buf)).map fun ws => { probes := s.probes, words := ws }

/-- Embedding of `DuplicatesSketch::has_duplicate`. -/
def DuplicatesSketch.hasDuplicate (mh : List Nat → Nat × Nat) (s : DuplicatesSketch)
    (buf : List Nat) : Option Bool :=
  hasDupWords s.words (probeList mh s buf)

/-- Embedding of `DuplicatesSketch::is_compatible`. -/
def DuplicatesSketch.isCompatible (a b : DuplicatesSketch) : Bool :=
  a.probes == b.probes && a.words.length == b.words.length

/-- Embedding of `DuplicatesSketch::merge`; the `assert!(is_compatible)` panic is `none`. -/
def DuplicatesSketch.merge (a b : DuplicatesSketch) : Option DuplicatesSketch :=
  if a.isCompatible b then
    some { probes := a.probes, words := List.zipWith mergeWord a.words b.words }
  else none

/-- Insert a whole list of buffers in order, propagating the panic case. -/
def insertAll (mh : List Nat → Nat × Nat) (s : DuplicatesSketch)
    (bufs : List (List Nat)) : Option DuplicatesSketch :=
  bufs.foldlM (fun t buf => t.insert mh buf) s

/-- Little-endian 4-byte encoding of a `u32`, as written by `write_u32::<LittleEndian>`. -/
def writeU32 (n : Nat) : List Nat :=
  [n % 256, n / 256 % 256, n / 256 ^ 2 % 256, n / 256 ^ 3 % 256]

/-- Little-endian 8-byte encoding of a `u64`, as written by `write_u64::<LittleEndian>`. -/
def writeU64 (n : Nat) : List Nat :=
  [n % 256, n / 256 % 256, n / 256 ^ 2 % 256, n / 256 ^ 3 % 256,
   n / 256 ^ 4 % 256, n / 256 ^ 5 % 256, n / 256 ^ 6 % 256, n / 256 ^ 7 % 256]

/-- Embedding of `DuplicatesSketch::serialize`: probes, word count, then the words. -/
def serialize (s : DuplicatesSketch) : List Nat :=
  writeU32 s.probes ++ writeU64 s.words.length ++ (s.words.map writeU32).flatten

/-- Reading a `u32`; `none` is `read_exact` failing with `ErrorKind::UnexpectedEof`,
which happens exactly when fewer than 4 bytes remain. -/
def readU32 : List Nat → Option (Nat × List Nat)
  | b0 :: b1 :: b2 :: b3 :: rest =>
    some (b0 + 256 * b1 + 256 ^ 2 * b2 + 256 ^ 3 * b3, rest)
  | _ => none

/-- Reading a `u64`; `none` when fewer than 8 bytes remain. -/
def readU64 : List Nat → Option (Nat × List Nat)
  | b0 :: b1 :: b2 :: b3 :: b4 :: b5 :: b6 :: b7 :: rest =>
    some (b0 + 256 * b1 + 256 ^ 2 * b2 + 256 ^ 3 * b3 + 256 ^ 4 * b4 + 256 ^ 5 * b5 +
      256 ^ 6 * b6 + 256 ^ 7 * b7, rest)
  | _ => none

/-- Reading `n` consecutive words, as `read_u32_into` on a buffer of length `n`. -/
def readWordList : Nat → List Nat → Option (List Nat × List Nat)
  | 0, bytes => some ([], bytes)
  | n + 1, bytes =>
    (readU32 bytes).bind fun p => (readWordList n p.2).map fun q => (p.1 :: q.1, q.2)

/-- Embedding of `DuplicatesSketch::deserialize` (part one).  An `UnexpectedEof` from
the very first `read_u32` is mapped to `Ok(None)`; any later short read is an IO
error, modelled as `Except.error ()`. -/
def deserialize (bytes : List Nat) : Except Unit (Option DuplicatesSketch) :=
  match readU32 bytes with
  | none => Except.ok none
  | some (probes, r1) =>
    match readU64 r1 with
    | none => Except.error ()
    | some (len, r2) =>
      match readWordList len r2 with
      | none => Except.error ()
      | some (ws, _) => Except.ok (some { probes := probes, words := ws })

/-- Value of the `k`-th 2-bit counter of a word. -/
def slot (w k : Nat) : Nat := w / 4 ^ k % 4

/-- A fixed trivial stand-in hash used to instantiate concrete runs. -/
def mhZero : List Nat → Nat × Nat := fun _ => (0, 0)

/-- `a` has no bit outside `b`: the bits of `a` are a subset of the bits of `b`. -/
def bitSub (a b : Nat) : Prop := a ||| b = b

instance (a b : Nat) : Decidable (bitSub a b) :=
  inferInstanceAs (Decidable (a ||| b = b))

/-- Sketches reachable from `new` by sequences of `insert` and `merge`. -/
inductive Reachable (mh : List Nat → Nat × Nat) : DuplicatesSketch → Prop where
  | new (p r : Nat) (s : DuplicatesSketch) (h : DuplicatesSketch.new p r = some s) :
      Reachable mh s
  | insert (s s' : DuplicatesSketch) (buf : List Nat) (hs : Reachable mh s)
      (h : s.insert mh buf = some s') : Reachable mh s'
  | merge (a b c : DuplicatesSketch) (ha : Reachable mh a) (hb : Reachable mh b)
      (h : a.merge b = some c) : Reachable mh c

/-- A sketch together with every sketch obtained from it by further inserts or
merges (on either side). -/
inductive Evolves (mh : List Nat → Nat × Nat) :
    DuplicatesSketch → DuplicatesSketch → Prop where
  | refl (s : DuplicatesSketch) : Evolves mh s s
  | insert (s t u : DuplicatesSketch) (buf : List Nat) (h1 : Evolves mh s t)
      (h2 : t.insert mh buf = some u) : Evolves mh s u
  | mergeL (s t o u : DuplicatesSketch) (h1 : Evolves mh s t)
      (h2 : t.merge o = some u) : Evolves mh s u
  | mergeR (s t o u : DuplicatesSketch) (h1 : Evolves mh s t)
      (h2 : o.merge t = some u) : Evolves mh s u

/-- Build one sketch by inserting the whole sequence, as in the `insert` test. -/
def buildSingle (mh : List Nat → Nat × Nat) (p r : Nat) (S : List (List Nat)) :
    Option DuplicatesSketch :=
  (DuplicatesSketch.new p r).bind fun s => insertAll mh s S

/-- Build a sub-sketch per partition class and merge them all into a fresh sketch,
as in the `merge` test. -/
def buildMerged (mh : List Nat → Nat × Nat) (p r : Nat)
    (SS : List (List (List Nat))) : Option DuplicatesSketch :=
  (DuplicatesSketch.new p r).bind fun s0 =>
    SS.foldlM (fun a Si =>
      ((DuplicatesSketch.new p r).bind fun t => insertAll mh t Si).bind
        fun sub => a.merge sub) s0

/-- The counter transition of one `insert` hit, at slot level: `c ||| ((c &&& 1) + 1)`. -/
def incSlot (c : Nat) : Nat := c ||| ((c &&& 1) + 1)

/-- The counter combination of `merge`, at slot level:
`a ||| b ||| ((a &&& 1) + (b &&& 1))`. -/
def mergeSlot (a b : Nat) : Nat := a ||| b ||| ((a &&& 1) + (b &&& 1))

/-! ### Slot arithmetic: decomposing 32-bit words into their 16 2-bit counters -/

theorem slot_lt_four (w k : Nat) : slot w k < 4 := Nat.mod_lt _ (by norm_num)

theorem slot_testBit (w k j : Nat) :
    (slot w k).testBit j = (decide (j < 2) && w.testBit (2 * k + j)) := by
  have h4 : (4 : Nat) ^ k = 2 ^ (2 * k) := by rw [pow_mul]; norm_num
  rw [slot, h4, ← Nat.shiftRight_eq_div_pow, show (4 : Nat) = 2 ^ 2 by norm_num,
    Nat.testBit_mod_two_pow, Nat.testBit_shiftRight]

theorem eq_of_testBit_two :
    ∀ a < 4, ∀ b < 4, a.testBit 0 = b.testBit 0 → a.testBit 1 = b.testBit 1 → a = b := by
  decide

theorem slot_or (a b k : Nat) : slot (a ||| b) k = slot a k ||| slot b k := by
  have hlt : slot a k ||| slot b k < 4 := by
    have := Nat.or_lt_two_pow (n := 2) (slot_lt_four a k) (slot_lt_four b k)
    simpa using this
  refine eq_of_testBit_two _ (slot_lt_four _ _) _ hlt ?_ ?_ <;>
    · simp only [slot_testBit, Nat.testBit_or]
      simp

theorem slot_and (a b k : Nat) : slot (a &&& b) k = slot a k &&& slot b k := by
  have hlt : slot a k &&& slot b k < 4 :=
    lt_of_le_of_lt Nat.and_le_left (slot_lt_four a k)
  refine eq_of_testBit_two _ (slot_lt_four _ _) _ hlt ?_ ?_ <;>
    · simp only [slot_testBit, Nat.testBit_and]
      simp

theorem slot_eq_zero_of_ge (a k : Nat) (ha : a < 2 ^ 32) (hk : 16 ≤ k) : slot a k = 0 := by
  have h : a < 4 ^ k :=
    lt_of_lt_of_le (lt_of_lt_of_le ha (by norm_num : (2 : Nat) ^ 32 ≤ 4 ^ 16))
      (Nat.pow_le_pow_right (by norm_num) hk)
  simp [slot, Nat.div_eq_of_lt h]

theorem slot_div_four (w k : Nat) : slot (w / 4) k = slot w (k + 1) := by
  unfold slot
  rw [Nat.div_div_eq_div_mul, ← pow_succ']

theorem slot_add (x y : Nat) (hx : ∀ k, slot x k ≤ 1) (hy : ∀ k, slot y k ≤ 1) :
    ∀ k, slot (x + y) k = slot x k + slot y k := by
  intro k
  induction k generalizing x y hx hy with
  | zero =>
    have h1 := hx 0
    have h2 := hy 0
    unfold slot at *
    simp only [pow_zero, Nat.div_one] at *
    omega
  | succ k ih =>
    have h1 := hx 0
    have h2 := hy 0
    unfold slot at h1 h2
    simp only [pow_zero, Nat.div_one] at h1 h2
    have hdiv : (x + y) / 4 = x / 4 + y / 4 := by omega
    rw [← slot_div_four, hdiv,
      ih (x / 4) (y / 4) (fun k => by rw [slot_div_four]; exact hx _)
        (fun k => by rw [slot_div_four]; exact hy _),
      slot_div_four, slot_div_four]

theorem slot_mask_le (k : Nat) : slot WORD_MASK k ≤ 1 := by
  rcases lt_or_ge k 16 with h | h
  · revert h
    revert k
    decide
  · rw [slot_eq_zero_of_ge _ _ (by decide) h]
    norm_num

theorem slot_mask_eq (k : Nat) (hk : k < 16) : slot WORD_MASK k = 1 := by
  revert hk
  revert k
  decide

theorem slot_land_mask_le (x k : Nat) : slot (x &&& WORD_MASK) k ≤ 1 := by
  rw [slot_and]
  exact le_trans Nat.and_le_right (slot_mask_le k)

theorem slot_land_mask (x k : Nat) (hk : k < 16) :
    slot (x &&& WORD_MASK) k = slot x k &&& 1 := by
  rw [slot_and, slot_mask_eq k hk]

theorem slot_two_pow_double (j k : Nat) : slot (2 ^ (2 * j)) k = if k = j then 1 else 0 := by
  rcases eq_or_ne k j with h | h
  · subst h
    have h4 : (2 : Nat) ^ (2 * k) = 4 ^ k := by rw [pow_mul]; norm_num
    rw [slot, h4, Nat.div_self (Nat.pos_pow_of_pos k (by norm_num)), if_pos rfl]
  · rw [if_neg h]
    rcases lt_or_gt_of_ne h with hlt | hgt
    · obtain ⟨m, hm⟩ : ∃ m, j - k = m + 1 := ⟨j - k - 1, by omega⟩
      have h4 : (2 : Nat) ^ (2 * j) = 4 ^ j := by rw [pow_mul]; norm_num
      rw [slot, h4, Nat.pow_div (by omega) (by norm_num), hm, pow_succ, Nat.mul_mod_left]
    · have hsm : (2 : Nat) ^ (2 * j) < 4 ^ k := by
        have h4 : (4 : Nat) ^ k = 2 ^ (2 * k) := by rw [pow_mul]; norm_num
        rw [h4]
        exact Nat.pow_lt_pow_right (by norm_num) (by omega)
      rw [slot, Nat.div_eq_of_lt hsm]

theorem slot_shift_and (w k : Nat) : (w >>> (2 * k)) &&& 3 = slot w k := by
  have h4 : (4 : Nat) ^ k = 2 ^ (2 * k) := by rw [pow_mul]; norm_num
  rw [slot, h4, ← Nat.shiftRight_eq_div_pow,
    show (3 : Nat) = 2 ^ 2 - 1 by norm_num, Nat.and_pow_two_sub_one_eq_mod]

/-! ### Slot characterisation of the word-level operations -/

theorem insertWord_slot (w j k : Nat) (hj : j ≤ 15) :
    slot (insertWord w (2 * j)) k = if k = j then incSlot (slot w j) else slot w k := by
  have hbit : (1 : Nat) <<< (2 * j) = 2 ^ (2 * j) := by rw [Nat.shiftLeft_eq, one_mul]
  have hpow : (2 : Nat) ^ (2 * j) ≤ 2 ^ 30 := Nat.pow_le_pow_right (by norm_num) (by omega)
  have hle : w &&& 2 ^ (2 * j) ≤ 2 ^ (2 * j) := Nat.and_le_right
  have hlt : (w &&& 2 ^ (2 * j)) + 2 ^ (2 * j) < 2 ^ 32 := by omega
  have hx : ∀ k, slot (w &&& 2 ^ (2 * j)) k ≤ 1 := by
    intro k
    rw [slot_and, slot_two_pow_double]
    split
    · exact le_trans Nat.and_le_right le_rfl
    · simp
  have hy : ∀ k, slot (2 ^ (2 * j)) k ≤ 1 := by
    intro k
    rw [slot_two_pow_double]
    split <;> norm_num
  unfold insertWord
  rw [hbit, Nat.mod_eq_of_lt hlt, slot_or, slot_add _ _ hx hy k, slot_and,
    slot_two_pow_double]
  rcases eq_or_ne k j with h | h
  · subst h
    simp [incSlot]
  · simp [h]

theorem mergeWord_slot (a b k : Nat) (hk : k < 16) :
    slot (mergeWord a b) k = mergeSlot (slot a k) (slot b k) := by
  have h1 : a &&& WORD_MASK ≤ WORD_MASK := Nat.and_le_right
  have h2 : b &&& WORD_MASK ≤ WORD_MASK := Nat.and_le_right
  have hlt : (a &&& WORD_MASK) + (b &&& WORD_MASK) < 2 ^ 32 :=
    lt_of_le_of_lt (Nat.add_le_add h1 h2) (by norm_num [WORD_MASK])
  unfold mergeWord
  rw [Nat.mod_eq_of_lt hlt, slot_or, slot_or,
    slot_add _ _ (fun k => slot_land_mask_le a k) (fun k => slot_land_mask_le b k) k,
    slot_land_mask a k hk, slot_land_mask b k hk]
  unfold mergeSlot
  rw [Nat.or_assoc]

/-! ### Bit-subset order and monotonicity of the word operations -/

theorem bitSub_refl (a : Nat) : bitSub a a := Nat.or_self a

theorem bitSub_or_left (a x : Nat) : bitSub a (a ||| x) := by
  unfold bitSub
  rw [← Nat.or_assoc, Nat.or_self]

theorem bitSub_trans {a b c : Nat} (h1 : bitSub a b) (h2 : bitSub b c) : bitSub a c := by
  unfold bitSub at *
  rw [← h2, ← Nat.or_assoc, h1]

theorem bitSub_testBit {a b : Nat} (h : bitSub a b) (i : Nat) (hi : a.testBit i = true) :
    b.testBit i = true := by
  rw [← h, Nat.testBit_or, hi, Bool.true_or]

theorem bitSub_insertWord (w bit : Nat) : bitSub w (insertWord w bit) := bitSub_or_left _ _

theorem bitSub_mergeWord_left (a b : Nat) : bitSub a (mergeWord a b) := bitSub_or_left _ _

theorem bitSub_mergeWord_right (a b : Nat) : bitSub b (mergeWord a b) := by
  unfold bitSub mergeWord
  refine Nat.eq_of_testBit_eq fun i => ?_
  simp only [Nat.testBit_or]
  cases a.testBit i <;> cases b.testBit i <;> simp

theorem bitSub_slot {a b : Nat} (h : bitSub a b) (k : Nat) : bitSub (slot a k) (slot b k) := by
  unfold bitSub
  rw [← slot_or, h]

theorem mergeWord_lt (a b : Nat) (ha : a < 2 ^ 32) (hb : b < 2 ^ 32) :
    mergeWord a b < 2 ^ 32 :=
  Nat.or_lt_two_pow ha (Nat.or_lt_two_pow hb (Nat.mod_lt _ (by norm_num)))

theorem insertWord_lt (w bit : Nat) (hw : w < 2 ^ 32) : insertWord w bit < 2 ^ 32 :=
  Nat.or_lt_two_pow hw (Nat.mod_lt _ (by norm_num))

/-! ### Population count and next power of two -/

theorem countOnesAux_zero (f : Nat) : countOnesAux f 0 = 0 := by
  cases f <;> rfl

theorem countOnesAux_fuel (f : Nat) : ∀ g n, n ≤ f → n ≤ g → countOnesAux f n = countOnesAux g n := by
  induction f with
  | zero =>
    intro g n hf _
    have h0 : n = 0 := by omega
    subst h0
    rw [countOnesAux_zero, countOnesAux_zero]
  | succ f ih =>
    intro g n hf hg
    cases g with
    | zero =>
      have h0 : n = 0 := by omega
      subst h0
      rw [countOnesAux_zero, countOnesAux_zero]
    | succ g =>
      simp only [countOnesAux]
      rcases Nat.eq_zero_or_pos n with h0 | h0
      · simp [h0]
      · rw [if_neg (by omega), if_neg (by omega), ih g (n / 2) (by omega) (by omega)]

theorem countOnes_unfold (n : Nat) :
    countOnes n = if n = 0 then 0 else n % 2 + countOnes (n / 2) := by
  rcases Nat.eq_zero_or_pos n with h0 | h0
  · subst h0
    rfl
  · rw [if_neg (by omega)]
    obtain ⟨m, rfl⟩ : ∃ m, n = m + 1 := ⟨n - 1, by omega⟩
    show countOnesAux (m + 1) (m + 1) = _
    simp only [countOnesAux]
    rw [if_neg (by omega)]
    congr 1
    exact countOnesAux_fuel m ((m + 1) / 2) ((m + 1) / 2) (by omega) le_rfl

theorem countOnes_eq_zero : ∀ n, countOnes n = 0 → n = 0 := by
  intro n
  induction n using Nat.strong_induction_on with
  | _ n ih =>
    intro h
    rw [countOnes_unfold] at h
    by_cases h0 : n = 0
    · exact h0
    · rw [if_neg h0] at h
      have h2 : countOnes (n / 2) = 0 := by omega
      have h3 := ih (n / 2) (by omega) h2
      omega

theorem pow_of_countOnes_one : ∀ n, countOnes n = 1 → ∃ k, n = 2 ^ k := by
  intro n
  induction n using Nat.strong_induction_on with
  | _ n ih =>
    intro h
    rw [countOnes_unfold] at h
    by_cases h0 : n = 0
    · rw [if_pos h0] at h
      omega
    · rw [if_neg h0] at h
      by_cases hp : n % 2 = 1
      · have h2 : countOnes (n / 2) = 0 := by omega
        have h3 := countOnes_eq_zero _ h2
        exact ⟨0, by omega⟩
      · have h2 : countOnes (n / 2) = 1 := by omega
        obtain ⟨k, hk⟩ := ih (n / 2) (by omega) h2
        refine ⟨k + 1, ?_⟩
        rw [pow_succ]
        omega

theorem nextPowAux_fuel (f : Nat) :
    ∀ g n, n ≤ f + 1 → n ≤ g + 1 → nextPowAux f n = nextPowAux g n := by
  induction f with
  | zero =>
    intro g n hf _
    cases g with
    | zero => rfl
    | succ g =>
      show _ = if n ≤ 1 then 1 else _
      rw [if_pos (by omega)]
      rfl
  | succ f ih =>
    intro g n hf hg
    cases g with
    | zero =>
      show (if n ≤ 1 then 1 else _) = _
      rw [if_pos (by omega)]
      rfl
    | succ g =>
      simp only [nextPowAux]
      by_cases h1 : n ≤ 1
      · rw [if_pos h1, if_pos h1]
      · rw [if_neg h1, if_neg h1, ih g ((n + 1) / 2) (by omega) (by omega)]

theorem nextPow_unfold (n : Nat) :
    nextPowerOfTwo n = if n ≤ 1 then 1 else 2 * nextPowerOfTwo ((n + 1) / 2) := by
  by_cases h1 : n ≤ 1
  · rw [if_pos h1]
    interval_cases n <;> rfl
  · rw [if_neg h1]
    obtain ⟨m, rfl⟩ : ∃ m, n = m + 1 := ⟨n - 1, by omega⟩
    show nextPowAux (m + 1) (m + 1) = _
    simp only [nextPowAux]
    rw [if_neg h1]
    congr 1
    exact nextPowAux_fuel m ((m + 2) / 2) ((m + 2) / 2) (by omega) (by omega)

theorem nextPow_two_pow (k : Nat) : nextPowerOfTwo (2 ^ k) = 2 ^ k := by
  induction k with
  | zero => rfl
  | succ k ih =>
    have h2 : (2 : Nat) ^ (k + 1) = 2 * 2 ^ k := by rw [pow_succ]; ring
    have hpos : 1 ≤ (2 : Nat) ^ k := Nat.one_le_two_pow
    rw [nextPow_unfold, if_neg (by omega)]
    have hdiv : (2 ^ (k + 1) + 1) / 2 = 2 ^ k := by omega
    rw [hdiv, ih]
    omega

/-- Behaviour of `new` for positive probe counts: the `is_power_of_two` branch applies
`next_power_of_two` to a number that is already a power of two, a no-op, so the word
count is `size / 4` in every case. -/
theorem new_eq (p r : Nat) (hp : 1 ≤ p) :
    DuplicatesSketch.new p r = some { probes := p, words := List.replicate (r / 4) 0 } := by
  unfold DuplicatesSketch.new
  rw [if_pos hp]
  have harm : (if isPowerOfTwo (r / 4) then nextPowerOfTwo (r / 4) else r / 4) = r / 4 := by
    by_cases h : isPowerOfTwo (r / 4)
    · rw [if_pos h]
      have h1 : countOnes (r / 4) = 1 := by simpa [isPowerOfTwo] using h
      obtain ⟨k, hk⟩ := pow_of_countOnes_one (r / 4) h1
      rw [hk, nextPow_two_pow]
    · rw [if_neg h]
  rw [harm]

/-! ### Small decidable facts about slot transitions -/

theorem incSlot_odd : ∀ c < 4, incSlot c % 2 = 1 := by decide

theorem incSlot_of_odd : ∀ c < 4, c % 2 = 1 → incSlot c = 3 := by decide

theorem bitSub_odd : ∀ a < 4, ∀ b < 4, bitSub a b → a % 2 = 1 → b % 2 = 1 := by decide

theorem bitSub_three : ∀ b < 4, bitSub 3 b → b = 3 := by decide

/-! ### Lists of words: getD and set -/

theorem getD_set_self (l : List Nat) (i v : Nat) (h : i < l.length) :
    (l.set i v).getD i 0 = v := by
  simp [List.getD_eq_getElem?_getD, List.getElem?_set_self h]

theorem getD_set_ne (l : List Nat) (i j v : Nat) (h : i ≠ j) :
    (l.set i v).getD j 0 = l.getD j 0 := by
  simp [List.getD_eq_getElem?_getD, List.getElem?_set_ne h]

theorem mergeWord_zero : mergeWord 0 0 = 0 := by decide

theorem getD_zipWith_merge (A B : List Nat) (hlen : A.length = B.length) (i : Nat) :
    (List.zipWith mergeWord A B).getD i 0 = mergeWord (A.getD i 0) (B.getD i 0) := by
  by_cases h : i < A.length
  · simp [List.getD_eq_getElem?_getD, List.getElem?_zipWith',
      List.getElem?_eq_getElem h, List.getElem?_eq_getElem (show i < B.length by omega)]
  · have h1 : A[i]? = none := List.getElem?_eq_none (by omega)
    have h2 : B[i]? = none := List.getElem?_eq_none (by omega)
    simp [List.getD_eq_getElem?_getD, List.getElem?_zipWith', h1, h2, mergeWord_zero]

/-! ### The insert loop -/

theorem insertWords_length {words w' : List Nat} {ps : List (Nat × Nat)}
    (h : insertWords words ps = some w') : w'.length = words.length := by
  induction ps generalizing words with
  | nil =>
    simp only [insertWords] at h
    obtain rfl := Option.some_inj.mp h
    rfl
  | cons p ps ih =>
    simp only [insertWords] at h
    by_cases hp : p.1 < words.length
    · rw [if_pos hp] at h
      rw [ih h, List.length_set]
    · rw [if_neg hp] at h
      cases h

theorem insertWords_some {words : List Nat} {ps : List (Nat × Nat)}
    (hps : ∀ p ∈ ps, p.1 < words.length) : ∃ w', insertWords words ps = some w' := by
  induction ps generalizing words with
  | nil => exact ⟨words, rfl⟩
  | cons p ps ih =>
    have hp : p.1 < words.length := hps p (List.mem_cons_self p ps)
    simp only [insertWords, if_pos hp]
    refine ih fun q hq => ?_
    rw [List.length_set]
    exact hps q (List.mem_cons_of_mem p hq)

theorem insertWords_bitSub {words w' : List Nat} {ps : List (Nat × Nat)}
    (h : insertWords words ps = some w') :
    ∀ i, bitSub (words.getD i 0) (w'.getD i 0) := by
  induction ps generalizing words with
  | nil =>
    simp only [insertWords] at h
    obtain rfl := Option.some_inj.mp h
    exact fun i => bitSub_refl _
  | cons p ps ih =>
    simp only [insertWords] at h
    by_cases hp : p.1 < words.length
    · rw [if_pos hp] at h
      intro i
      refine bitSub_trans ?_ (ih h i)
      by_cases hi : p.1 = i
      · subst hi
        rw [getD_set_self _ _ _ hp]
        exact bitSub_insertWord _ _
      · rw [getD_set_ne _ _ _ _ hi]
        exact bitSub_refl _
    · rw [if_neg hp] at h
      cases h

theorem insertWords_sets_odd {words w' : List Nat} {ps : List (Nat × Nat)}
    (h : insertWords words ps = some w') {ix j : Nat} (hj : j ≤ 15)
    (hmem : (ix, 2 * j) ∈ ps) : slot (w'.getD ix 0) j % 2 = 1 := by
  induction ps generalizing words with
  | nil => cases hmem
  | cons p ps ih =>
    simp only [insertWords] at h
    by_cases hp : p.1 < words.length
    · rw [if_pos hp] at h
      rcases List.mem_cons.mp hmem with heq | hmem'
      · obtain rfl := heq.symm
        have h1 : slot ((words.set ix (insertWord (words.getD ix 0) (2 * j))).getD ix 0) j
            % 2 = 1 := by
          rw [getD_set_self _ _ _ hp, insertWord_slot _ _ _ hj, if_pos rfl]
          exact incSlot_odd _ (slot_lt_four _ _)
        exact bitSub_odd _ (slot_lt_four _ _) _ (slot_lt_four _ _)
          (bitSub_slot (insertWords_bitSub h ix) j) h1
      · exact ih h hmem'
    · rw [if_neg hp] at h
      cases h

theorem insertWords_promotes {words w' : List Nat} {ps : List (Nat × Nat)}
    (h : insertWords words ps = some w') {ix j : Nat} (hj : j ≤ 15)
    (hmem : (ix, 2 * j) ∈ ps) (hodd : slot (words.getD ix 0) j % 2 = 1) :
    slot (w'.getD ix 0) j = 3 := by
  induction ps generalizing words with
  | nil => cases hmem
  | cons p ps ih =>
    simp only [insertWords] at h
    by_cases hp : p.1 < words.length
    · rw [if_pos hp] at h
      rcases List.mem_cons.mp hmem with heq | hmem'
      · obtain rfl := heq.symm
        have h1 : slot ((words.set ix (insertWord (words.getD ix 0) (2 * j))).getD ix 0) j
            = 3 := by
          rw [getD_set_self _ _ _ hp, insertWord_slot _ _ _ hj, if_pos rfl]
          exact incSlot_of_odd _ (slot_lt_four _ _) hodd
        have h2 := bitSub_slot (insertWords_bitSub h ix) j
        rw [h1] at h2
        exact bitSub_three _ (slot_lt_four _ _) h2
      · refine ih h hmem' ?_
        by_cases hi : p.1 = ix
        · subst hi
          rw [getD_set_self _ _ _ hp]
          obtain ⟨m, hm⟩ : ∃ m, p.2 = m := ⟨p.2, rfl⟩
          rw [hm]
          have hsub := bitSub_slot (bitSub_insertWord (words.getD p.1 0) m) j
          exact bitSub_odd _ (slot_lt_four _ _) _ (slot_lt_four _ _) hsub hodd
        · rw [getD_set_ne _ _ _ _ hi]
          exact hodd
    · rw [if_neg hp] at h
      cases h

/-! ### The has_duplicate loop -/

theorem hasDupWords_true {words : List Nat} {ps : List (Nat × Nat)}
    (h : ∀ p ∈ ps, p.1 < words.length ∧ 1 < (words.getD p.1 0 >>> p.2) &&& 3) :
    hasDupWords words ps = some true := by
  induction ps with
  | nil => rfl
  | cons p ps ih =>
    obtain ⟨h1, h2⟩ := h p (List.mem_cons_self p ps)
    simp only [hasDupWords]
    rw [if_pos h1, if_pos h2]
    exact ih fun q hq => h q (List.mem_cons_of_mem p hq)

/-! ### Probe positions -/

theorem probeList_mem {mh : List Nat → Nat × Nat} {s : DuplicatesSketch} {buf : List Nat}
    {p : Nat × Nat} (hp : p ∈ probeList mh s buf) :
    p.1 ≤ s.words.length - 1 ∧ ∃ j, j ≤ 15 ∧ p.2 = 2 * j := by
  unfold probeList at hp
  obtain ⟨i, _, rfl⟩ := List.mem_map.mp hp
  unfold probePos
  refine ⟨Nat.and_le_right, probeHash (mh buf).1 (mh buf).2 i &&& (WORD_BITS / 2 - 1), ?_, ?_⟩
  · exact le_trans Nat.and_le_right (by norm_num [WORD_BITS])
  · exact Nat.mul_comm _ 2

theorem probeList_congr {mh : List Nat → Nat × Nat} {s t : DuplicatesSketch}
    (hp : s.probes = t.probes) (hl : s.words.length = t.words.length) (buf : List Nat) :
    probeList mh s buf = probeList mh t buf := by
  unfold probeList
  rw [hp, hl]

/-! ### Sketch-level steps -/

theorem insert_step {mh : List Nat → Nat × Nat} {s t : DuplicatesSketch} {buf : List Nat}
    (h : s.insert mh buf = some t) :
    t.probes = s.probes ∧ t.words.length = s.words.length ∧
      ∀ i, bitSub (s.words.getD i 0) (t.words.getD i 0) := by
  unfold DuplicatesSketch.insert at h
  cases hw : insertWords s.words (probeList mh s buf) with
  | none =>
    rw [hw] at h
    cases h
  | some ws =>
    rw [hw] at h
    obtain rfl := Option.some_inj.mp h
    exact ⟨rfl, insertWords_length hw, insertWords_bitSub hw⟩

theorem insert_some {mh : List Nat → Nat × Nat} {s : DuplicatesSketch} {buf : List Nat}
    (hlen : 1 ≤ s.words.length) : ∃ t, s.insert mh buf = some t := by
  obtain ⟨w', hw⟩ := @insertWords_some s.words (probeList mh s buf)
    (fun p hp => by have := (probeList_mem hp).1; omega)
  refine ⟨{ probes := s.probes, words := w' }, ?_⟩
  unfold DuplicatesSketch.insert
  rw [hw]
  rfl

theorem insertAll_step {mh : List Nat → Nat × Nat} {s t : DuplicatesSketch}
    {bufs : List (List Nat)} (h : insertAll mh s bufs = some t) :
    t.probes = s.probes ∧ t.words.length = s.words.length ∧
      ∀ i, bitSub (s.words.getD i 0) (t.words.getD i 0) := by
  induction bufs generalizing s with
  | nil =>
    obtain rfl := Option.some_inj.mp h
    exact ⟨rfl, rfl, fun i => bitSub_refl _⟩
  | cons buf bufs ih =>
    unfold insertAll at h
    rw [List.foldlM_cons] at h
    cases hins : s.insert mh buf with
    | none =>
      rw [hins] at h
      cases h
    | some s1 =>
      rw [hins] at h
      have h2 : insertAll mh s1 bufs = some t := h
      obtain ⟨hp1, hl1, hb1⟩ := insert_step hins
      obtain ⟨hp2, hl2, hb2⟩ := ih h2
      exact ⟨by rw [hp2, hp1], by rw [hl2, hl1], fun i => bitSub_trans (hb1 i) (hb2 i)⟩

theorem insertAll_some {mh : List Nat → Nat × Nat} {s : DuplicatesSketch}
    {bufs : List (List Nat)} (hlen : 1 ≤ s.words.length) :
    ∃ t, insertAll mh s bufs = some t := by
  induction bufs generalizing s with
  | nil => exact ⟨s, rfl⟩
  | cons buf bufs ih =>
    obtain ⟨s1, h1⟩ := @insert_some mh s buf hlen
    have hl : 1 ≤ s1.words.length := by
      obtain ⟨_, hl1, _⟩ := insert_step h1
      omega
    obtain ⟨t, ht⟩ := ih hl
    refine ⟨t, ?_⟩
    unfold insertAll
    rw [List.foldlM_cons, h1]
    exact ht

theorem count_two_split {l : List (List Nat)} {x : List Nat} (h : 2 ≤ l.count x) :
    ∃ A B C, l = A ++ x :: (B ++ x :: C) := by
  induction l with
  | nil => simp at h
  | cons y l ih =>
    by_cases hy : y = x
    · subst hy
      rw [List.count_cons_self] at h
      have h2 : y ∈ l := List.count_pos_iff.mp (by omega)
      obtain ⟨B, C, rfl⟩ := List.append_of_mem h2
      exact ⟨[], B, C, rfl⟩
    · have h1 : 2 ≤ l.count x := by
        rw [List.count_cons] at h
        have hne : ¬(y == x) = true := by
          simp only [beq_iff_eq]
          exact hy
        rw [if_neg hne] at h
        omega
      obtain ⟨A, B, C, rfl⟩ := ih h1
      exact ⟨y :: A, B, C, rfl⟩

/-- Core no-false-negatives argument: after inserting a list containing `x` at least
twice into a sketch with at least one word, every probe position of `x` holds
counter value 3, so `has_duplicate` answers true. -/
theorem nfn_core {mh : List Nat → Nat × Nat} {s t : DuplicatesSketch}
    {bufs : List (List Nat)} {x : List Nat} (hlen : 1 ≤ s.words.length)
    (hcount : 2 ≤ bufs.count x) (h : insertAll mh s bufs = some t) :
    t.hasDuplicate mh x = some true := by
  obtain ⟨A, B, C, rfl⟩ := count_two_split hcount
  have hsplit : ∃ sA s1 sB s2,
      insertAll mh s A = some sA ∧ sA.insert mh x = some s1 ∧
      insertAll mh s1 B = some sB ∧ sB.insert mh x = some s2 ∧
      insertAll mh s2 C = some t := by
    unfold insertAll at h ⊢
    rw [List.foldlM_append] at h
    cases hA : List.foldlM (fun t buf => t.insert mh buf) s A with
    | none =>
      rw [hA] at h
      cases h
    | some sA =>
      rw [hA] at h
      have h2 : List.foldlM (fun t buf => t.insert mh buf) sA (x :: (B ++ x :: C)) =
          some t := h
      rw [List.foldlM_cons] at h2
      cases h1 : sA.insert mh x with
      | none =>
        rw [h1] at h2
        cases h2
      | some s1 =>
        rw [h1] at h2
        have h3 : List.foldlM (fun t buf => t.insert mh buf) s1 (B ++ x :: C) = some t := h2
        rw [List.foldlM_append] at h3
        cases hB : List.foldlM (fun t buf => t.insert mh buf) s1 B with
        | none =>
          rw [hB] at h3
          cases h3
        | some sB =>
          rw [hB] at h3
          have h4 : List.foldlM (fun t buf => t.insert mh buf) sB (x :: C) = some t := h3
          rw [List.foldlM_cons] at h4
          cases hx2 : sB.insert mh x with
          | none =>
            rw [hx2] at h4
            cases h4
          | some s2 =>
            rw [hx2] at h4
            exact ⟨sA, s1, sB, s2, rfl, h1, hB, hx2, h4⟩
  obtain ⟨sA, s1, sB, s2, hA, h1, hB, hx2, hC⟩ := hsplit
  obtain ⟨hpA, hlA, _⟩ := insertAll_step hA
  obtain ⟨hp1, hl1, _⟩ := insert_step h1
  obtain ⟨hpB, hlB, hbB⟩ := insertAll_step hB
  obtain ⟨hp2, hl2, _⟩ := insert_step hx2
  obtain ⟨hpC, hlC, hbC⟩ := insertAll_step hC
  have hpsA : probeList mh sA x = probeList mh s x := probeList_congr hpA hlA x
  have hpsB : probeList mh sB x = probeList mh s x :=
    probeList_congr (by rw [hpB, hp1, hpA]) (by rw [hlB, hl1, hlA]) x
  have hpsT : probeList mh t x = probeList mh s x :=
    probeList_congr (by rw [hpC, hp2, hpB, hp1, hpA]) (by rw [hlC, hl2, hlB, hl1, hlA]) x
  have key : ∀ p ∈ probeList mh s x, 1 < (t.words.getD p.1 0 >>> p.2) &&& 3 := by
    intro p hp
    obtain ⟨hle, j, hj, hp2j⟩ := probeList_mem hp
    have hmemA : (p.1, 2 * j) ∈ probeList mh sA x := by
      rw [hpsA, ← hp2j]
      exact hp
    have hmemB : (p.1, 2 * j) ∈ probeList mh sB x := by
      rw [hpsB, ← hp2j]
      exact hp
    have hodd1 : slot (s1.words.getD p.1 0) j % 2 = 1 := by
      unfold DuplicatesSketch.insert at h1
      cases hw : insertWords sA.words (probeList mh sA x) with
      | none =>
        rw [hw] at h1
        cases h1
      | some ws =>
        rw [hw] at h1
        obtain rfl := Option.some_inj.mp h1
        exact insertWords_sets_odd hw hj hmemA
    have hodd2 : slot (sB.words.getD p.1 0) j % 2 = 1 :=
      bitSub_odd _ (slot_lt_four _ _) _ (slot_lt_four _ _)
        (bitSub_slot (hbB p.1) j) hodd1
    have hthree : slot (s2.words.getD p.1 0) j = 3 := by
      unfold DuplicatesSketch.insert at hx2
      cases hw : insertWords sB.words (probeList mh sB x) with
      | none =>
        rw [hw] at hx2
        cases hx2
      | some ws =>
        rw [hw] at hx2
        obtain rfl := Option.some_inj.mp hx2
        exact insertWords_promotes hw hj hmemB hodd2
    have hfin : slot (t.words.getD p.1 0) j = 3 := by
      have hsub := bitSub_slot (hbC p.1) j
      rw [hthree] at hsub
      exact bitSub_three _ (slot_lt_four _ _) hsub
    rw [hp2j, slot_shift_and, hfin]
    norm_num
  unfold DuplicatesSketch.hasDuplicate
  rw [hpsT]
  apply hasDupWords_true
  intro p hp
  refine ⟨?_, key p hp⟩
  have hlep := (probeList_mem hp).1
  have hltT : t.words.length = s.words.length := by rw [hlC, hl2, hlB, hl1, hlA]
  omega

/-! ### Serialization lemmas -/

theorem readU32_writeU32 (n : Nat) (hn : n < 2 ^ 32) (rest : List Nat) :
    readU32 (writeU32 n ++ rest) = some (n, rest) := by
  show some (n % 256 + 256 * (n / 256 % 256) + 256 ^ 2 * (n / 256 ^ 2 % 256) +
    256 ^ 3 * (n / 256 ^ 3 % 256), rest) = some (n, rest)
  have h : n % 256 + 256 * (n / 256 % 256) + 256 ^ 2 * (n / 256 ^ 2 % 256) +
      256 ^ 3 * (n / 256 ^ 3 % 256) = n := by omega
  rw [h]

theorem readU64_writeU64 (n : Nat) (hn : n < 2 ^ 64) (rest : List Nat) :
    readU64 (writeU64 n ++ rest) = some (n, rest) := by
  show some (n % 256 + 256 * (n / 256 % 256) + 256 ^ 2 * (n / 256 ^ 2 % 256) +
    256 ^ 3 * (n / 256 ^ 3 % 256) + 256 ^ 4 * (n / 256 ^ 4 % 256) +
    256 ^ 5 * (n / 256 ^ 5 % 256) + 256 ^ 6 * (n / 256 ^ 6 % 256) +
    256 ^ 7 * (n / 256 ^ 7 % 256), rest) = some (n, rest)
  have h : n % 256 + 256 * (n / 256 % 256) + 256 ^ 2 * (n / 256 ^ 2 % 256) +
      256 ^ 3 * (n / 256 ^ 3 % 256) + 256 ^ 4 * (n / 256 ^ 4 % 256) +
      256 ^ 5 * (n / 256 ^ 5 % 256) + 256 ^ 6 * (n / 256 ^ 6 % 256) +
      256 ^ 7 * (n / 256 ^ 7 % 256) = n := by omega
  rw [h]

theorem readWordList_flatten (ws : List Nat) (hws : ∀ w ∈ ws, w < 2 ^ 32)
    (rest : List Nat) :
    readWordList ws.length ((ws.map writeU32).flatten ++ rest) = some (ws, rest) := by
  induction ws with
  | nil => rfl
  | cons w ws ih =>
    have h1 := readU32_writeU32 w (hws w (List.mem_cons_self w ws))
      ((ws.map writeU32).flatten ++ rest)
    have h2 := ih fun q hq => hws q (List.mem_cons_of_mem w hq)
    simp only [List.map_cons, List.flatten_cons, List.length_cons, List.append_assoc]
    simp only [readWordList, h1, Option.some_bind, h2, Option.map_some']

theorem readU32_none_iff (bs : List Nat) : readU32 bs = none ↔ bs.length < 4 := by
  rcases bs with _ | ⟨b0, _ | ⟨b1, _ | ⟨b2, _ | ⟨b3, tl⟩⟩⟩⟩ <;> simp [readU32]

theorem readU64_none_iff (bs : List Nat) : readU64 bs = none ↔ bs.length < 8 := by
  rcases bs with _ | ⟨b0, _ | ⟨b1, _ | ⟨b2, _ | ⟨b3, _ | ⟨b4, _ | ⟨b5, _ | ⟨b6, _ |
    ⟨b7, tl⟩⟩⟩⟩⟩⟩⟩⟩ <;> simp [readU64]

theorem readU32_some_length {bs : List Nat} {v : Nat} {rest : List Nat}
    (h : readU32 bs = some (v, rest)) : bs.length = rest.length + 4 := by
  rcases bs with _ | ⟨b0, _ | ⟨b1, _ | ⟨b2, _ | ⟨b3, tl⟩⟩⟩⟩ <;> simp [readU32] at h
  obtain ⟨h1, h2⟩ := h
  subst h2
  simp

theorem readWordList_none_of_short (n : Nat) (bs : List Nat) (h : bs.length < 4 * n) :
    readWordList n bs = none := by
  induction n generalizing bs with
  | zero => omega
  | succ n ih =>
    simp only [readWordList]
    cases hr : readU32 bs with
    | none => rfl
    | some p =>
      have hlen : bs.length = p.2.length + 4 := readU32_some_length hr
      rw [Option.some_bind, ih p.2 (by omega)]
      rfl

theorem readU64_some_length {bs : List Nat} {v : Nat} {rest : List Nat}
    (h : readU64 bs = some (v, rest)) : bs.length = rest.length + 8 := by
  rcases bs with _ | ⟨b0, _ | ⟨b1, _ | ⟨b2, _ | ⟨b3, _ | ⟨b4, _ | ⟨b5, _ | ⟨b6, _ |
    ⟨b7, tl⟩⟩⟩⟩⟩⟩⟩⟩ <;> simp [readU64] at h
  obtain ⟨h1, h2⟩ := h
  subst h2
  simp

/-- Exhaustive case analysis of `deserialize` following its read sequence. -/
theorem deserialize_cases (bytes : List Nat) :
    (bytes.length < 4 ∧ deserialize bytes = Except.ok none) ∨
    (∃ v r1, readU32 bytes = some (v, r1) ∧ readU64 r1 = none ∧
      deserialize bytes = Except.error ()) ∨
    (∃ v r1 len r2, readU32 bytes = some (v, r1) ∧ readU64 r1 = some (len, r2) ∧
      readWordList len r2 = none ∧ deserialize bytes = Except.error ()) ∨
    (∃ v r1 len r2 ws r3, readU32 bytes = some (v, r1) ∧ readU64 r1 = some (len, r2) ∧
      readWordList len r2 = some (ws, r3) ∧
      deserialize bytes = Except.ok (some { probes := v, words := ws })) := by
  unfold deserialize
  cases hr : readU32 bytes with
  | none => exact Or.inl ⟨(readU32_none_iff bytes).mp hr, rfl⟩
  | some p =>
    obtain ⟨v, r1⟩ := p
    cases hu : readU64 r1 with
    | none => exact Or.inr (Or.inl ⟨v, r1, rfl, hu, by simp [hu]⟩)
    | some q =>
      obtain ⟨len, r2⟩ := q
      cases hw : readWordList len r2 with
      | none =>
        exact Or.inr (Or.inr (Or.inl ⟨v, r1, len, r2, rfl, hu, hw, by simp [hu, hw]⟩))
      | some z =>
        obtain ⟨ws, r3⟩ := z
        exact Or.inr (Or.inr (Or.inr ⟨v, r1, len, r2, ws, r3, rfl, hu, hw,
          by simp [hu, hw]⟩))

theorem deserialize_short {bytes : List Nat} (h : bytes.length < 4) :
    deserialize bytes = Except.ok none := by
  unfold deserialize
  rw [(readU32_none_iff bytes).mpr h]

/-! ## Claim theorems -/

/-- Claim C1, counterexample to the claim as stated: the claim quantifies over every
sketch freshly constructed by `new`, but `new(1, 0)` yields a sketch with zero words,
and there inserting the empty buffer twice and querying it panics on an out-of-range
index (modelled as `none`), so `has_duplicate` does not return true. -/
theorem c1_counterexample :
    ((DuplicatesSketch.new 1 0).bind fun s => (insertAll mhZero s [[], []]).bind
      fun t => t.hasDuplicate mhZero []) = none ∧ (none : Option Bool) ≠ some true :=
  ⟨by decide, by decide⟩

/-- Claim C1 (amended with `4 ≤ requested_bytes`, so the sketch has at least one
word): for every hash function, probes ≥ 1, and insert sequence `S` containing `x`
at least twice, building a fresh sketch, inserting all of `S`, and querying `x`
returns `some true` — no false negatives. -/
theorem c1_no_false_negatives (mh : List Nat → Nat × Nat) (p r : Nat)
    (S : List (List Nat)) (x : List Nat) (hp : 1 ≤ p) (hr : 4 ≤ r)
    (hcount : 2 ≤ S.count x) :
    ((DuplicatesSketch.new p r).bind fun s => (insertAll mh s S).bind
      fun t => t.hasDuplicate mh x) = some true := by
  rw [new_eq p r hp]
  have hlen : 1 ≤ ({ probes := p, words := List.replicate (r / 4) 0 } :
      DuplicatesSketch).words.length := by
    simp only [List.length_replicate]
    omega
  obtain ⟨t, ht⟩ := @insertAll_some mh
    { probes := p, words := List.replicate (r / 4) 0 } S hlen
  have hgoal : (insertAll mh { probes := p, words := List.replicate (r / 4) 0 } S).bind
      (fun t => t.hasDuplicate mh x) = some true := by
    rw [ht]
    exact nfn_core hlen hcount ht
  exact hgoal

theorem c1_witness :
    ((DuplicatesSketch.new 1 4).bind fun s => (insertAll mhZero s [[], []]).bind
      fun t => t.hasDuplicate mhZero []) = some true :=
  c1_no_false_negatives mhZero 1 4 [[], []] [] (by norm_num) (by norm_num) (by decide)

/-- Claim C3, counterexample to the claim as stated: `new(1, 12)` has `W₀ = 3`, not a
power of two, and the claim demands `W = next_power_of_two(3) = 4`, but the code
yields `W = 3`; also `new(1, 0)` yields `W = 0`, not the claimed `W = 1`. -/
theorem c3_counterexample :
    (DuplicatesSketch.new 1 12).map (fun s => s.words.length) = some 3 ∧
      nextPowerOfTwo 3 = 4 ∧ (3 : Nat) ≠ 4 ∧
      (DuplicatesSketch.new 1 0).map (fun s => s.words.length) = some 0 ∧
      (0 : Nat) ≠ 1 :=
  ⟨by decide, by decide, by decide, by decide, by decide⟩

/-- Claim C3 (amended): for probes ≥ 1 the constructed sketch always has exactly
`requested_bytes / 4` zero words — the power-of-two branch applies
`next_power_of_two` to an already-power-of-two value, a no-op, so `W` is a power of
two only when `requested_bytes / 4` happens to be one, `requested_bytes = 0` yields
`W = 0`, and `W · 4 = 4 · (requested_bytes / 4)` which is below `requested_bytes`
whenever `requested_bytes` is not a multiple of 4. -/
theorem c3_word_count (p r : Nat) (hp : 1 ≤ p) :
    ∃ s, DuplicatesSketch.new p r = some s ∧ s.words.length = r / 4 ∧
      s.probes = p ∧ ∀ w ∈ s.words, w = 0 :=
  ⟨_, new_eq p r hp, by simp, rfl, fun w hw => List.eq_of_mem_replicate hw⟩

theorem c3_witness :
    ∃ s, DuplicatesSketch.new 2 13 = some s ∧ s.words.length = 13 / 4 ∧
      s.probes = 2 ∧ ∀ w ∈ s.words, w = 0 :=
  c3_word_count 2 13 (by norm_num)

/-- Claim C8, evidence for the code bug: with `requested_bytes = 0` the sketch has
zero words, and `insert` evaluates `len - 1` with `len = 0` and indexes out of
bounds — a panic, modelled `none` — contradicting the claim that every probe index
is in range for every `requested_bytes`. -/
theorem c8_insert_out_of_range :
    (DuplicatesSketch.new 1 0).map (fun s => s.words.length) = some 0 ∧
      ((DuplicatesSketch.new 1 0).bind fun s => s.insert mhZero [7]) = none :=
  ⟨by decide, by decide⟩

/-- Claim C10 (confirmed): `deserialize` accepts a header with probes = 0 without
error, and on any deserialized sketch with probes = 0, `has_duplicate` returns true
for every buffer — the `all` over an empty probe iterator is vacuously true. -/
theorem c10_zero_probes :
    deserialize (List.replicate 12 0) = Except.ok (some { probes := 0, words := [] }) ∧
      ∀ (bytes : List Nat) (s : DuplicatesSketch),
        deserialize bytes = Except.ok (some s) → s.probes = 0 →
        ∀ (mh : List Nat → Nat × Nat) (buf : List Nat),
          s.hasDuplicate mh buf = some true := by
  refine ⟨rfl, ?_⟩
  intro bytes s h hp mh buf
  unfold DuplicatesSketch.hasDuplicate probeList
  rw [hp]
  rfl

theorem c10_witness :
    DuplicatesSketch.hasDuplicate mhZero { probes := 0, words := [] } [1, 2] =
      some true :=
  c10_zero_probes.2 (List.replicate 12 0) { probes := 0, words := [] }
    c10_zero_probes.1 rfl mhZero [1, 2]

/-- Claim C6 (confirmed): deserializing the exact byte stream produced by
`serialize` yields a sketch with identical probes field and word array.  The
well-formedness bounds express that the fields fit the `u32`/`u64` types they hold
in the source. -/
theorem c6_roundtrip (s : DuplicatesSketch) (hp : s.probes < 2 ^ 32)
    (hl : s.words.length < 2 ^ 64) (hw : ∀ w ∈ s.words, w < 2 ^ 32) :
    deserialize (serialize s) = Except.ok (some s) := by
  have h1 := readU32_writeU32 s.probes hp
    (writeU64 s.words.length ++ (s.words.map writeU32).flatten)
  have h2 := readU64_writeU64 s.words.length hl (s.words.map writeU32).flatten
  have h3 := readWordList_flatten s.words hw []
  rw [List.append_nil] at h3
  simp only [serialize, deserialize, List.append_assoc, h1, h2, h3]

theorem c6_witness :
    deserialize (serialize { probes := 1, words := [3] }) =
      Except.ok (some { probes := 1, words := [3] }) :=
  c6_roundtrip { probes := 1, words := [3] } (by norm_num) (by simp) (by decide)

/-- Claim C7, counterexample to the claim as stated: a stream holding a single byte
is a partial probes field, which the claim says must yield a truncation error, but
`read_exact` reports a partial fill with `ErrorKind::UnexpectedEof` exactly like an
empty stream, so `deserialize` returns the normal no-sketch signal `Ok(None)`. -/
theorem c7_counterexample :
    deserialize [1] = Except.ok none ∧
      Except.ok (none : Option DuplicatesSketch) ≠ Except.error () :=
  ⟨rfl, fun h => Except.noConfusion h⟩

/-- Claim C7 (amended): the no-sketch signal occurs exactly when the stream holds
fewer than 4 bytes — immediate end of stream and a partial probes field both produce
it, because `read_exact` reports both as `UnexpectedEof`; a missing or partial
word-count field and a missing or truncated word body yield a truncation error. -/
theorem c7_eof_discrimination (bytes : List Nat) :
    (deserialize bytes = Except.ok none ↔ bytes.length < 4) ∧
      (4 ≤ bytes.length → bytes.length < 12 → deserialize bytes = Except.error ()) ∧
      (∀ b0 b1 b2 b3 b4 b5 b6 b7 b8 b9 b10 b11 rest,
        bytes = b0 :: b1 :: b2 :: b3 :: b4 :: b5 :: b6 :: b7 :: b8 :: b9 :: b10 ::
          b11 :: rest →
        rest.length < 4 * (b4 + 256 * b5 + 256 ^ 2 * b6 + 256 ^ 3 * b7 +
          256 ^ 4 * b8 + 256 ^ 5 * b9 + 256 ^ 6 * b10 + 256 ^ 7 * b11) →
        deserialize bytes = Except.error ()) := by
  refine ⟨⟨?_, deserialize_short⟩, ?_, ?_⟩
  · intro h
    rcases deserialize_cases bytes with ⟨hl, _⟩ | ⟨v, r1, _, _, he⟩ |
      ⟨v, r1, len, r2, _, _, _, he⟩ | ⟨v, r1, len, r2, ws, r3, _, _, _, he⟩
    · exact hl
    · rw [he] at h
      simp at h
    · rw [he] at h
      simp at h
    · rw [he] at h
      simp at h
  · intro h4 h12
    rcases deserialize_cases bytes with ⟨hl, _⟩ | ⟨v, r1, hr, hu, he⟩ |
      ⟨v, r1, len, r2, hr, hu, _, he⟩ | ⟨v, r1, len, r2, ws, r3, hr, hu, _, _⟩
    · omega
    · exact he
    · have e1 := readU32_some_length hr
      have e2 := readU64_some_length hu
      omega
    · have e1 := readU32_some_length hr
      have e2 := readU64_some_length hu
      omega
  · intro b0 b1 b2 b3 b4 b5 b6 b7 b8 b9 b10 b11 rest hb hshort
    subst hb
    have hnone := readWordList_none_of_short
      (b4 + 256 * b5 + 256 ^ 2 * b6 + 256 ^ 3 * b7 + 256 ^ 4 * b8 + 256 ^ 5 * b9 +
        256 ^ 6 * b10 + 256 ^ 7 * b11) rest hshort
    have hr0 : readU32 (b0 :: b1 :: b2 :: b3 :: b4 :: b5 :: b6 :: b7 :: b8 :: b9 ::
        b10 :: b11 :: rest) = some (b0 + 256 * b1 + 256 ^ 2 * b2 + 256 ^ 3 * b3,
        b4 :: b5 :: b6 :: b7 :: b8 :: b9 :: b10 :: b11 :: rest) := rfl
    have hu0 : readU64 (b4 :: b5 :: b6 :: b7 :: b8 :: b9 :: b10 :: b11 :: rest) =
        some (b4 + 256 * b5 + 256 ^ 2 * b6 + 256 ^ 3 * b7 + 256 ^ 4 * b8 +
          256 ^ 5 * b9 + 256 ^ 6 * b10 + 256 ^ 7 * b11, rest) := rfl
    rcases deserialize_cases (b0 :: b1 :: b2 :: b3 :: b4 :: b5 :: b6 :: b7 :: b8 ::
        b9 :: b10 :: b11 :: rest) with ⟨hl, _⟩ | ⟨v, r1, hr, hu, he⟩ |
      ⟨v, r1, len, r2, hr, hu, hw, he⟩ | ⟨v, r1, len, r2, ws, r3, hr, hu, hw, he⟩
    · simp only [List.length_cons] at hl
      omega
    · rw [hr0] at hr
      have hr1 : b4 :: b5 :: b6 :: b7 :: b8 :: b9 :: b10 :: b11 :: rest = r1 :=
        congrArg Prod.snd (Option.some_inj.mp hr)
      rw [← hr1, hu0] at hu
      cases hu
    · exact he
    · rw [hr0] at hr
      have hr1 : b4 :: b5 :: b6 :: b7 :: b8 :: b9 :: b10 :: b11 :: rest = r1 :=
        congrArg Prod.snd (Option.some_inj.mp hr)
      rw [← hr1, hu0] at hu
      have hlen : b4 + 256 * b5 + 256 ^ 2 * b6 + 256 ^ 3 * b7 + 256 ^ 4 * b8 +
          256 ^ 5 * b9 + 256 ^ 6 * b10 + 256 ^ 7 * b11 = len :=
        congrArg Prod.fst (Option.some_inj.mp hu)
      have hr2 : rest = r2 := congrArg Prod.snd (Option.some_inj.mp hu)
      rw [← hlen, ← hr2, hnone] at hw
      cases hw

theorem c7_witness :
    deserialize [9] = Except.ok none ∧ deserialize [9, 0, 0, 0] = Except.error () ∧
      deserialize [9, 0, 0, 0, 1, 0, 0, 0, 0, 0, 0, 0] = Except.error () :=
  ⟨(c7_eof_discrimination [9]).1.mpr (by decide),
   (c7_eof_discrimination [9, 0, 0, 0]).2.1 (by decide) (by decide),
   (c7_eof_discrimination [9, 0, 0, 0, 1, 0, 0, 0, 0, 0, 0, 0]).2.2
     9 0 0 0 1 0 0 0 0 0 0 0 [] rfl (by decide)⟩

/-! ### Reachability, evolution and the counter-range invariant -/

theorem incSlot_ne_two : ∀ c < 4, incSlot c ≠ 2 := by decide

theorem mergeSlot_ne_two : ∀ a < 4, ∀ b < 4, a ≠ 2 → b ≠ 2 → mergeSlot a b ≠ 2 := by
  decide

theorem getD_replicate_zero (n i : Nat) : (List.replicate n 0).getD i 0 = 0 := by
  simp [List.getD_eq_getElem?_getD, List.getElem?_replicate]
  split <;> rfl

theorem getD_bound {words : List Nat} (hb : ∀ i, words.getD i 0 < 2 ^ 32) (i : Nat) :
    words.getD i 0 < 2 ^ 32 := hb i

theorem insertWords_bound {words w' : List Nat} {ps : List (Nat × Nat)}
    (h : insertWords words ps = some w') (hb : ∀ i, words.getD i 0 < 2 ^ 32) :
    ∀ i, w'.getD i 0 < 2 ^ 32 := by
  induction ps generalizing words with
  | nil =>
    obtain rfl := Option.some_inj.mp h
    exact hb
  | cons p ps ih =>
    simp only [insertWords] at h
    by_cases hp : p.1 < words.length
    · rw [if_pos hp] at h
      refine ih h fun i => ?_
      by_cases hi : p.1 = i
      · subst hi
        rw [getD_set_self _ _ _ hp]
        exact insertWord_lt _ _ (hb p.1)
      · rw [getD_set_ne _ _ _ _ hi]
        exact hb i
    · rw [if_neg hp] at h
      cases h

theorem insertWords_no_two {words w' : List Nat} {ps : List (Nat × Nat)}
    (h : insertWords words ps = some w')
    (hps : ∀ p ∈ ps, ∃ j, j ≤ 15 ∧ p.2 = 2 * j)
    (hinv : ∀ i k, slot (words.getD i 0) k ≠ 2) :
    ∀ i k, slot (w'.getD i 0) k ≠ 2 := by
  induction ps generalizing words with
  | nil =>
    obtain rfl := Option.some_inj.mp h
    exact hinv
  | cons p ps ih =>
    simp only [insertWords] at h
    by_cases hp : p.1 < words.length
    · rw [if_pos hp] at h
      refine ih h (fun q hq => hps q (List.mem_cons_of_mem p hq)) fun i k => ?_
      by_cases hi : p.1 = i
      · subst hi
        rw [getD_set_self _ _ _ hp]
        obtain ⟨j, hj, hp2⟩ := hps p (List.mem_cons_self p ps)
        rw [hp2, insertWord_slot _ _ _ hj]
        split
        · exact incSlot_ne_two _ (slot_lt_four _ _)
        · exact hinv p.1 k
      · rw [getD_set_ne _ _ _ _ hi]
        exact hinv i k
    · rw [if_neg hp] at h
      cases h

theorem merge_step {a b c : DuplicatesSketch} (h : a.merge b = some c) :
    c.probes = a.probes ∧ c.probes = b.probes ∧
    c.words.length = a.words.length ∧ c.words.length = b.words.length ∧
    (∀ i, bitSub (a.words.getD i 0) (c.words.getD i 0)) ∧
    (∀ i, bitSub (b.words.getD i 0) (c.words.getD i 0)) := by
  unfold DuplicatesSketch.merge at h
  by_cases hc : a.isCompatible b = true
  · rw [if_pos hc] at h
    obtain rfl := Option.some_inj.mp h
    have hcc : a.probes = b.probes ∧ a.words.length = b.words.length := by
      simpa [DuplicatesSketch.isCompatible] using hc
    obtain ⟨hcp, hcl⟩ := hcc
    have hlen : (List.zipWith mergeWord a.words b.words).length = a.words.length := by
      rw [List.length_zipWith]
      omega
    have hlen2 : (List.zipWith mergeWord a.words b.words).length = b.words.length := by
      rw [List.length_zipWith]
      omega
    refine ⟨rfl, hcp, hlen, hlen2, fun i => ?_, fun i => ?_⟩
    · rw [getD_zipWith_merge _ _ hcl i]
      exact bitSub_mergeWord_left _ _
    · rw [getD_zipWith_merge _ _ hcl i]
      exact bitSub_mergeWord_right _ _
  · rw [if_neg hc] at h
    cases h

theorem bitSub_shiftRight {a b : Nat} (h : bitSub a b) (n : Nat) :
    bitSub (a >>> n) (b >>> n) := by
  unfold bitSub at *
  refine Nat.eq_of_testBit_eq fun i => ?_
  rw [Nat.testBit_or, Nat.testBit_shiftRight, Nat.testBit_shiftRight,
    ← Nat.testBit_or, h]

theorem bitSub_and_mask {a b : Nat} (h : bitSub a b) (m : Nat) :
    bitSub (a &&& m) (b &&& m) := by
  unfold bitSub at *
  refine Nat.eq_of_testBit_eq fun i => ?_
  rw [Nat.testBit_or, Nat.testBit_and, Nat.testBit_and, ← Bool.and_or_distrib_right,
    ← Nat.testBit_or, h]

theorem window_mono : ∀ v < 4, ∀ v' < 4, bitSub v v' → 1 < v → 1 < v' := by decide

theorem hasDupWords_mono {A B : List Nat} (hl : B.length = A.length)
    (hsub : ∀ i, bitSub (A.getD i 0) (B.getD i 0)) {ps : List (Nat × Nat)}
    (h : hasDupWords A ps = some true) : hasDupWords B ps = some true := by
  induction ps with
  | nil => rfl
  | cons p ps ih =>
    simp only [hasDupWords] at h ⊢
    by_cases hp : p.1 < A.length
    · rw [if_pos hp] at h
      rw [if_pos (by omega)]
      by_cases hcond : 1 < (A.getD p.1 0 >>> p.2) &&& 3
      · rw [if_pos hcond] at h
        have hw : bitSub ((A.getD p.1 0 >>> p.2) &&& 3) ((B.getD p.1 0 >>> p.2) &&& 3) :=
          bitSub_and_mask (bitSub_shiftRight (hsub p.1) p.2) 3
        have hcond2 : 1 < (B.getD p.1 0 >>> p.2) &&& 3 :=
          window_mono _ (lt_of_le_of_lt Nat.and_le_right (by norm_num)) _
            (lt_of_le_of_lt Nat.and_le_right (by norm_num)) hw hcond
        rw [if_pos hcond2]
        exact ih h
      · rw [if_neg hcond] at h
        cases h
    · rw [if_neg hp] at h
      cases h

theorem hasDup_mono {mh : List Nat → Nat × Nat} {s t : DuplicatesSketch} {x : List Nat}
    (hp : t.probes = s.probes) (hl : t.words.length = s.words.length)
    (hsub : ∀ i, bitSub (s.words.getD i 0) (t.words.getD i 0))
    (h : s.hasDuplicate mh x = some true) : t.hasDuplicate mh x = some true := by
  unfold DuplicatesSketch.hasDuplicate at h ⊢
  rw [probeList_congr hp hl x]
  exact hasDupWords_mono hl hsub h

/-! ## Claim theorems for the counter semantics -/

/-- Claim C4, counterexample to the claim as stated: two compatible sketches whose
first counter both hold value 1 merge to counter value 3, not `min(1 + 1, 3) = 2`. -/
theorem c4_counterexample :
    DuplicatesSketch.merge { probes := 1, words := [1] } { probes := 1, words := [1] } =
      some { probes := 1, words := [3] } ∧
      slot 3 0 = 3 ∧ min (slot 1 0 + slot 1 0) 3 = 2 ∧ (3 : Nat) ≠ 2 :=
  ⟨by decide, by decide, by decide, by decide⟩

/-- Claim C4 (amended): after `merge`, every 2-bit counter `k` of the result holds
`a ||| b ||| ((a &&& 1) + (b &&& 1))` where `a`, `b` are the counter values before
the merge — the bitwise or of the two counters and of the sum of their low bits, not
the saturating sum `min(a + b, 3)`. -/
theorem c4_merge_counters (a b c : DuplicatesSketch) (h : a.merge b = some c)
    (k : Nat) (hk : k < 16) (i : Nat) :
    slot (c.words.getD i 0) k =
      mergeSlot (slot (a.words.getD i 0) k) (slot (b.words.getD i 0) k) := by
  unfold DuplicatesSketch.merge at h
  by_cases hc : a.isCompatible b = true
  · rw [if_pos hc] at h
    obtain rfl := Option.some_inj.mp h
    have hcc : a.probes = b.probes ∧ a.words.length = b.words.length := by
      simpa [DuplicatesSketch.isCompatible] using hc
    rw [getD_zipWith_merge _ _ hcc.2 i]
    exact mergeWord_slot _ _ k hk
  · rw [if_neg hc] at h
    cases h

theorem c4_witness :
    slot (({ probes := 1, words := [3] } : DuplicatesSketch).words.getD 0 0) 0 =
      mergeSlot (slot (({ probes := 1, words := [1] } :
          DuplicatesSketch).words.getD 0 0) 0)
        (slot (({ probes := 1, words := [1] } : DuplicatesSketch).words.getD 0 0) 0) :=
  c4_merge_counters { probes := 1, words := [1] } { probes := 1, words := [1] }
    { probes := 1, words := [3] } (by decide) 0 (by decide) 0

/-- Claim C5, counterexample to the claim as stated: inserting the same buffer twice
into a fresh sketch drives a counter to value 3 and sets an odd bit, so counters are
not confined to `{0, 1, 2}` and `words[i] &&& 0xAAAAAAAA` is not always 0. -/
theorem c5_counterexample :
    ((DuplicatesSketch.new 1 4).bind fun s => insertAll mhZero s [[], []]) =
      some { probes := 1, words := [3] } ∧
      slot 3 0 = 3 ∧ 3 &&& 0xAAAAAAAA ≠ 0 :=
  ⟨by decide, by decide, by decide⟩

/-- Claim C5 (amended): on every sketch reachable from `new` by inserts and merges,
every 2-bit counter avoids the value 2 — counters take values in `{0, 1, 3}`, with 3
(not 2) as the saturated state. -/
theorem c5_counter_values (mh : List Nat → Nat × Nat) (s : DuplicatesSketch)
    (h : Reachable mh s) : ∀ i k, slot (s.words.getD i 0) k ≠ 2 := by
  have main : (∀ i, s.words.getD i 0 < 2 ^ 32) ∧
      (∀ i k, slot (s.words.getD i 0) k ≠ 2) := by
    induction h with
    | new p r s hnew =>
      by_cases hp : 1 ≤ p
      · rw [new_eq p r hp] at hnew
        obtain rfl := Option.some_inj.mp hnew
        constructor
        · intro i
          rw [getD_replicate_zero]
          norm_num
        · intro i k
          rw [getD_replicate_zero]
          simp [slot]
      · unfold DuplicatesSketch.new at hnew
        rw [if_neg hp] at hnew
        cases hnew
    | insert s s' buf hs hins ih =>
      unfold DuplicatesSketch.insert at hins
      cases hw : insertWords s.words (probeList mh s buf) with
      | none =>
        rw [hw] at hins
        cases hins
      | some ws =>
        rw [hw] at hins
        obtain rfl := Option.some_inj.mp hins
        exact ⟨insertWords_bound hw ih.1,
          insertWords_no_two hw (fun q hq => (probeList_mem hq).2) ih.2⟩
    | merge a b c ha hb hm iha ihb =>
      obtain ⟨hcp, hcp2, hcl, hcl2, _, _⟩ := merge_step hm
      unfold DuplicatesSketch.merge at hm
      by_cases hc : a.isCompatible b = true
      · rw [if_pos hc] at hm
        obtain rfl := Option.some_inj.mp hm
        have hcc : a.probes = b.probes ∧ a.words.length = b.words.length := by
          simpa [DuplicatesSketch.isCompatible] using hc
        constructor
        · intro i
          rw [getD_zipWith_merge _ _ hcc.2 i]
          exact mergeWord_lt _ _ (iha.1 i) (ihb.1 i)
        · intro i k
          rw [getD_zipWith_merge _ _ hcc.2 i]
          by_cases hk : k < 16
          · rw [mergeWord_slot _ _ k hk]
            exact mergeSlot_ne_two _ (slot_lt_four _ _) _ (slot_lt_four _ _)
              (iha.2 i k) (ihb.2 i k)
          · rw [slot_eq_zero_of_ge _ _ (mergeWord_lt _ _ (iha.1 i) (ihb.1 i))
              (by omega)]
            norm_num
      · rw [if_neg hc] at hm
        cases hm
  exact main.2

theorem c5_witness :
    slot (({ probes := 1, words := [0] } : DuplicatesSketch).words.getD 0 0) 0 ≠ 2 :=
  c5_counter_values mhZero { probes := 1, words := [0] }
    (Reachable.new 1 4 _ (by decide)) 0 0

/-- Claim C9 (confirmed): `insert` and `merge` only set bits of the word array —
every word of the result contains every bit of the corresponding input word — and
consequently a `has_duplicate(x) = true` verdict persists across every further
sequence of inserts and merges. -/
theorem c9_monotone (mh : List Nat → Nat × Nat) :
    (∀ (s t : DuplicatesSketch) (buf : List Nat), s.insert mh buf = some t →
      ∀ i, bitSub (s.words.getD i 0) (t.words.getD i 0)) ∧
    (∀ a b c : DuplicatesSketch, a.merge b = some c →
      (∀ i, bitSub (a.words.getD i 0) (c.words.getD i 0)) ∧
      (∀ i, bitSub (b.words.getD i 0) (c.words.getD i 0))) ∧
    (∀ (s t : DuplicatesSketch) (x : List Nat), Evolves mh s t →
      s.hasDuplicate mh x = some true → t.hasDuplicate mh x = some true) := by
  refine ⟨fun s t buf h => (insert_step h).2.2,
    fun a b c h => ⟨(merge_step h).2.2.2.2.1, (merge_step h).2.2.2.2.2⟩, ?_⟩
  intro s t x hev
  induction hev with
  | refl => exact id
  | insert t u buf h1 h2 ih =>
    intro h
    obtain ⟨hp, hl, hsub⟩ := insert_step h2
    exact hasDup_mono hp hl hsub (ih h)
  | mergeL t o u h1 h2 ih =>
    intro h
    obtain ⟨hp, _, hl, _, hsub, _⟩ := merge_step h2
    exact hasDup_mono hp hl hsub (ih h)
  | mergeR t o u h1 h2 ih =>
    intro h
    obtain ⟨_, hp, _, hl, _, hsub⟩ := merge_step h2
    exact hasDup_mono hp hl hsub (ih h)

theorem c9_witness :
    DuplicatesSketch.hasDuplicate mhZero { probes := 1, words := [3] } [] = some true :=
  (c9_monotone mhZero).2.2 { probes := 1, words := [3] } { probes := 1, words := [3] }
    [] (Evolves.refl _) (by decide)

/-! ### Merge commutes with insertion: word and list level -/

theorem word_ext {a b : Nat} (ha : a < 2 ^ 32) (hb : b < 2 ^ 32)
    (h : ∀ k, k < 16 → slot a k = slot b k) : a = b := by
  refine Nat.eq_of_testBit_eq fun i => ?_
  by_cases hi : i < 32
  · have hk : i / 2 < 16 := by omega
    have hj : i % 2 < 2 := by omega
    have hd : (decide (i % 2 < 2)) = true := decide_eq_true hj
    have h0 := slot_testBit a (i / 2) (i % 2)
    have h1 := slot_testBit b (i / 2) (i % 2)
    rw [show 2 * (i / 2) + i % 2 = i by omega] at h0 h1
    rw [hd, Bool.true_and] at h0 h1
    rw [← h0, ← h1, h (i / 2) hk]
  · have h2 : a.testBit i = false :=
      Nat.testBit_lt_two_pow (lt_of_lt_of_le ha (Nat.pow_le_pow_right (by norm_num)
        (by omega)))
    have h3 : b.testBit i = false :=
      Nat.testBit_lt_two_pow (lt_of_lt_of_le hb (Nat.pow_le_pow_right (by norm_num)
        (by omega)))
    rw [h2, h3]

theorem mergeSlot_incSlot : ∀ a < 4, ∀ b < 4,
    mergeSlot a (incSlot b) = incSlot (mergeSlot a b) := by decide

theorem mergeWord_insertWord_comm (a b : Nat) (ha : a < 2 ^ 32) (hb : b < 2 ^ 32)
    (j : Nat) (hj : j ≤ 15) :
    mergeWord a (insertWord b (2 * j)) = insertWord (mergeWord a b) (2 * j) := by
  refine word_ext (mergeWord_lt _ _ ha (insertWord_lt _ _ hb))
    (insertWord_lt _ _ (mergeWord_lt _ _ ha hb)) fun k hk => ?_
  rw [mergeWord_slot _ _ k hk, insertWord_slot _ _ _ hj, insertWord_slot _ _ _ hj,
    mergeWord_slot _ _ j (by omega)]
  by_cases hkj : k = j
  · subst hkj
    rw [if_pos rfl, if_pos rfl]
    exact mergeSlot_incSlot _ (slot_lt_four _ _) _ (slot_lt_four _ _)
  · rw [if_neg hkj, if_neg hkj, mergeWord_slot _ _ k hk]

theorem or_and_absorb (a m : Nat) : a ||| (a &&& m) = a := by
  refine Nat.eq_of_testBit_eq fun i => ?_
  rw [Nat.testBit_or, Nat.testBit_and]
  cases a.testBit i <;> simp

theorem mergeWord_zero_right (a : Nat) (ha : a < 2 ^ 32) : mergeWord a 0 = a := by
  unfold mergeWord
  have hm : a &&& WORD_MASK < 2 ^ 32 := lt_of_le_of_lt Nat.and_le_left ha
  rw [Nat.zero_and, Nat.add_zero, Nat.mod_eq_of_lt hm, Nat.zero_or, or_and_absorb]

theorem getD_eq_getElem_of_lt (l : List Nat) (i : Nat) (h : i < l.length) :
    l.getD i 0 = l[i] := by
  simp [List.getD_eq_getElem?_getD, List.getElem?_eq_getElem h]

theorem zipWith_merge_set (A B : List Nat) (hlen : A.length = B.length) (i v : Nat)
    (hi : i < B.length) :
    List.zipWith mergeWord A (B.set i v) =
      (List.zipWith mergeWord A B).set i (mergeWord (A.getD i 0) v) := by
  refine List.ext_getElem? fun n => ?_
  by_cases hn : n = i
  · subst hn
    have hA : n < A.length := by omega
    have hz : n < (List.zipWith mergeWord A B).length := by
      rw [List.length_zipWith]
      omega
    rw [List.getElem?_zipWith', List.getElem?_set_self hi, List.getElem?_set_self hz,
      List.getElem?_eq_getElem hA, getD_eq_getElem_of_lt A n hA]
    rfl
  · have hne : i ≠ n := fun hc => hn hc.symm
    rw [List.getElem?_zipWith', List.getElem?_set_ne hne, List.getElem?_set_ne hne,
      List.getElem?_zipWith']

theorem zipWith_merge_zeros (A : List Nat) (hA : ∀ i, A.getD i 0 < 2 ^ 32) :
    List.zipWith mergeWord A (List.replicate A.length 0) = A := by
  refine List.ext_getElem? fun n => ?_
  rw [List.getElem?_zipWith']
  by_cases hn : n < A.length
  · rw [List.getElem?_eq_getElem hn, List.getElem?_replicate, if_pos hn]
    have hb : A[n] < 2 ^ 32 := by
      rw [← getD_eq_getElem_of_lt A n hn]
      exact hA n
    simp [mergeWord_zero_right _ hb]
  · rw [List.getElem?_eq_none (by omega),
      List.getElem?_eq_none (by rw [List.length_replicate]; omega)]
    rfl

theorem insertWords_merge_comm {A B B' : List Nat} {ps : List (Nat × Nat)}
    (hlen : A.length = B.length)
    (hA : ∀ i, A.getD i 0 < 2 ^ 32) (hB : ∀ i, B.getD i 0 < 2 ^ 32)
    (hps : ∀ p ∈ ps, ∃ j, j ≤ 15 ∧ p.2 = 2 * j)
    (h : insertWords B ps = some B') :
    insertWords (List.zipWith mergeWord A B) ps =
      some (List.zipWith mergeWord A B') := by
  induction ps generalizing B with
  | nil =>
    obtain rfl := Option.some_inj.mp h
    rfl
  | cons p ps ih =>
    simp only [insertWords] at h ⊢
    by_cases hp : p.1 < B.length
    · rw [if_pos hp] at h
      rw [if_pos (by rw [List.length_zipWith]; omega)]
      obtain ⟨j, hj, hp2⟩ := hps p (List.mem_cons_self p ps)
      have hgd : (List.zipWith mergeWord A B).getD p.1 0 =
          mergeWord (A.getD p.1 0) (B.getD p.1 0) := getD_zipWith_merge A B hlen p.1
      have hset : (List.zipWith mergeWord A B).set p.1
          (insertWord ((List.zipWith mergeWord A B).getD p.1 0) p.2) =
          List.zipWith mergeWord A (B.set p.1 (insertWord (B.getD p.1 0) p.2)) := by
        rw [hgd, zipWith_merge_set A B hlen p.1 _ hp, hp2,
          mergeWord_insertWord_comm _ _ (hA p.1) (hB p.1) j hj]
      rw [hset]
      refine ih ?_ ?_ (fun q hq => hps q (List.mem_cons_of_mem p hq)) h
      · rw [List.length_set]
        exact hlen
      · intro i
        by_cases hi : p.1 = i
        · subst hi
          rw [getD_set_self _ _ _ hp]
          exact insertWord_lt _ _ (hB p.1)
        · rw [getD_set_ne _ _ _ _ hi]
          exact hB i
    · rw [if_neg hp] at h
      cases h

/-! ### Merge commutes with insertion: sketch level -/

theorem insert_bound {mh : List Nat → Nat × Nat} {s t : DuplicatesSketch}
    {buf : List Nat} (h : s.insert mh buf = some t)
    (hb : ∀ i, s.words.getD i 0 < 2 ^ 32) : ∀ i, t.words.getD i 0 < 2 ^ 32 := by
  unfold DuplicatesSketch.insert at h
  cases hw : insertWords s.words (probeList mh s buf) with
  | none =>
    rw [hw] at h
    cases h
  | some ws =>
    rw [hw] at h
    obtain rfl := Option.some_inj.mp h
    exact insertWords_bound hw hb

theorem insertAll_bound {mh : List Nat → Nat × Nat} {s t : DuplicatesSketch}
    {bufs : List (List Nat)} (h : insertAll mh s bufs = some t)
    (hb : ∀ i, s.words.getD i 0 < 2 ^ 32) : ∀ i, t.words.getD i 0 < 2 ^ 32 := by
  induction bufs generalizing s with
  | nil =>
    obtain rfl := Option.some_inj.mp h
    exact hb
  | cons buf bufs ih =>
    unfold insertAll at h
    rw [List.foldlM_cons] at h
    cases hins : s.insert mh buf with
    | none =>
      rw [hins] at h
      cases h
    | some s1 =>
      rw [hins] at h
      have h2 : insertAll mh s1 bufs = some t := h
      exact ih h2 (insert_bound hins hb)

theorem merge_zeros (acc : DuplicatesSketch) (hb : ∀ i, acc.words.getD i 0 < 2 ^ 32) :
    acc.merge { probes := acc.probes, words := List.replicate acc.words.length 0 } =
      some acc := by
  obtain ⟨p, ws⟩ := acc
  unfold DuplicatesSketch.merge
  rw [if_pos (by simp [DuplicatesSketch.isCompatible])]
  have hz := zipWith_merge_zeros ws hb
  simp only [hz]

theorem insert_merge_comm {mh : List Nat → Nat × Nat} {acc B B1 C : DuplicatesSketch}
    {buf : List Nat} (hmerge : acc.merge B = some C)
    (hins : B.insert mh buf = some B1)
    (hA : ∀ i, acc.words.getD i 0 < 2 ^ 32) (hB : ∀ i, B.words.getD i 0 < 2 ^ 32) :
    ∃ C1, C.insert mh buf = some C1 ∧ acc.merge B1 = some C1 := by
  unfold DuplicatesSketch.merge at hmerge
  by_cases hc : acc.isCompatible B = true
  case neg =>
    rw [if_neg hc] at hmerge
    cases hmerge
  case pos =>
  rw [if_pos hc] at hmerge
  obtain rfl := Option.some_inj.mp hmerge
  have hcc : acc.probes = B.probes ∧ acc.words.length = B.words.length := by
    simpa [DuplicatesSketch.isCompatible] using hc
  obtain ⟨hcp, hcl⟩ := hcc
  unfold DuplicatesSketch.insert at hins
  cases hw : insertWords B.words (probeList mh B buf) with
  | none =>
    rw [hw] at hins
    cases hins
  | some wsB1 =>
    rw [hw] at hins
    obtain rfl := Option.some_inj.mp hins
    have hps : probeList mh
        { probes := acc.probes, words := List.zipWith mergeWord acc.words B.words }
        buf = probeList mh B buf :=
      probeList_congr
        (s := { probes := acc.probes,
                words := List.zipWith mergeWord acc.words B.words }) (t := B) hcp
        (by show (List.zipWith mergeWord acc.words B.words).length = B.words.length
            rw [List.length_zipWith]
            omega)
        buf
    have hiw := insertWords_merge_comm hcl hA hB
      (fun q hq => (probeList_mem hq).2) hw
    refine ⟨{ probes := acc.probes, words := List.zipWith mergeWord acc.words wsB1 },
      ?_, ?_⟩
    · unfold DuplicatesSketch.insert
      rw [hps, hiw]
      rfl
    · unfold DuplicatesSketch.merge
      rw [if_pos (by simp [DuplicatesSketch.isCompatible, hcp, insertWords_length hw,
        hcl])]

theorem merge_insertAll_comm {mh : List Nat → Nat × Nat} {acc : DuplicatesSketch}
    (hA : ∀ i, acc.words.getD i 0 < 2 ^ 32) (bufs : List (List Nat)) :
    ∀ B B' C : DuplicatesSketch, acc.merge B = some C →
      insertAll mh B bufs = some B' → (∀ i, B.words.getD i 0 < 2 ^ 32) →
      ∃ C', acc.merge B' = some C' ∧ insertAll mh C bufs = some C' := by
  induction bufs with
  | nil =>
    intro B B' C hmerge hins hB
    obtain rfl := Option.some_inj.mp hins
    exact ⟨C, hmerge, rfl⟩
  | cons buf bufs ih =>
    intro B B' C hmerge hins hB
    unfold insertAll at hins
    rw [List.foldlM_cons] at hins
    cases h1 : B.insert mh buf with
    | none =>
      rw [h1] at hins
      cases hins
    | some B1 =>
      rw [h1] at hins
      have hins2 : insertAll mh B1 bufs = some B' := hins
      obtain ⟨C1, hC1i, hC1m⟩ := insert_merge_comm hmerge h1 hA hB
      obtain ⟨C', hm2, hi2⟩ := ih B1 B' C1 hC1m hins2 (insert_bound h1 hB)
      refine ⟨C', hm2, ?_⟩
      unfold insertAll
      rw [List.foldlM_cons, hC1i]
      exact hi2

theorem insert_empty_none {mh : List Nat → Nat × Nat} {s : DuplicatesSketch}
    (hlen : s.words.length = 0) (hp : 1 ≤ s.probes) (buf : List Nat) :
    s.insert mh buf = none := by
  obtain ⟨m, hm⟩ : ∃ m, s.probes = m + 1 := ⟨s.probes - 1, by omega⟩
  unfold DuplicatesSketch.insert probeList
  rw [hm, List.range_succ_eq_map, List.map_cons]
  simp only [insertWords, hlen]
  rw [if_neg (Nat.not_lt_zero _)]
  rfl

theorem insertAll_empty {mh : List Nat → Nat × Nat} {s : DuplicatesSketch}
    (hlen : s.words.length = 0) (hp : 1 ≤ s.probes) (bufs : List (List Nat)) :
    insertAll mh s bufs = if bufs = [] then some s else none := by
  cases bufs with
  | nil => rfl
  | cons b bs =>
    rw [if_neg (by simp)]
    unfold insertAll
    rw [List.foldlM_cons, insert_empty_none hlen hp b]
    rfl

theorem insertAll_append (mh : List Nat → Nat × Nat) (s : DuplicatesSketch)
    (l1 l2 : List (List Nat)) :
    insertAll mh s (l1 ++ l2) =
      (insertAll mh s l1).bind fun s1 => insertAll mh s1 l2 := by
  unfold insertAll
  rw [List.foldlM_append]
  rfl

theorem fold_merge_sub (mh : List Nat → Nat × Nat) (p W : Nat) (hW : 1 ≤ W)
    (SS : List (List (List Nat))) :
    ∀ acc : DuplicatesSketch, acc.probes = p → acc.words.length = W →
      (∀ i, acc.words.getD i 0 < 2 ^ 32) →
      SS.foldlM (fun a Si =>
        (insertAll mh { probes := p, words := List.replicate W 0 } Si).bind
          fun sub => a.merge sub) acc =
      insertAll mh acc SS.flatten := by
  induction SS with
  | nil =>
    intro acc _ _ _
    rfl
  | cons Si SS ih =>
    intro acc hap hal hab
    simp only [List.foldlM_cons]
    have hs0b : ∀ i, ({ probes := p, words := List.replicate W 0 } :
        DuplicatesSketch).words.getD i 0 < 2 ^ 32 := fun i => by
      rw [getD_replicate_zero]
      norm_num
    obtain ⟨sub, hsub⟩ := @insertAll_some mh
      { probes := p, words := List.replicate W 0 } Si
      (by simp only [List.length_replicate]; omega)
    have hmz : acc.merge { probes := p, words := List.replicate W 0 } = some acc := by
      have hz := merge_zeros acc hab
      rw [hap, hal] at hz
      exact hz
    obtain ⟨C', hm2, hi2⟩ := merge_insertAll_comm hab Si _ sub acc hmz hsub hs0b
    have hstep : (insertAll mh { probes := p, words := List.replicate W 0 } Si).bind
        (fun sub => acc.merge sub) = some C' := by
      rw [hsub]
      exact hm2
    rw [hstep, List.flatten_cons, insertAll_append mh acc Si SS.flatten, hi2]
    obtain ⟨hC'p, hC'l, _⟩ := insertAll_step hi2
    exact ih C' (by rw [hC'p, hap]) (by rw [hC'l, hal]) (insertAll_bound hi2 hab)

theorem fold_merge_empty (mh : List Nat → Nat × Nat) (p : Nat) (hp : 1 ≤ p)
    (SS : List (List (List Nat))) :
    SS.foldlM (fun (a : DuplicatesSketch) Si =>
      (insertAll mh { probes := p, words := List.replicate 0 0 } Si).bind
        fun sub => a.merge sub)
      ({ probes := p, words := List.replicate 0 0 } : DuplicatesSketch) =
      if SS.flatten = [] then
        some ({ probes := p, words := List.replicate 0 0 } : DuplicatesSketch)
      else none := by
  induction SS with
  | nil => rfl
  | cons Si SS ih =>
    simp only [List.foldlM_cons]
    by_cases hSi : Si = []
    · subst hSi
      have hm : ({ probes := p, words := List.replicate 0 0 } :
          DuplicatesSketch).merge { probes := p, words := List.replicate 0 0 } =
          some ({ probes := p, words := List.replicate 0 0 } : DuplicatesSketch) := by
        unfold DuplicatesSketch.merge
        rw [if_pos (by simp [DuplicatesSketch.isCompatible])]
        rfl
      have hstep : (insertAll mh
          ({ probes := p, words := List.replicate 0 0 } : DuplicatesSketch) []).bind
          (fun sub => ({ probes := p, words := List.replicate 0 0 } :
            DuplicatesSketch).merge sub) =
          some ({ probes := p, words := List.replicate 0 0 } : DuplicatesSketch) := hm
      rw [hstep, List.flatten_cons, List.nil_append]
      exact ih
    · have hnone : insertAll mh
          ({ probes := p, words := List.replicate 0 0 } : DuplicatesSketch) Si =
          none := by
        rw [insertAll_empty (s := { probes := p, words := List.replicate 0 0 }) rfl hp
          Si, if_neg hSi]
      have hstep : (insertAll mh
          ({ probes := p, words := List.replicate 0 0 } : DuplicatesSketch) Si).bind
          (fun sub => ({ probes := p, words := List.replicate 0 0 } :
            DuplicatesSketch).merge sub) = none := by
        rw [hnone]
        rfl
      rw [hstep, List.flatten_cons,
        if_neg (fun hc => hSi (List.append_eq_nil.mp hc).1)]
      rfl

/-- Claim C2 (confirmed): building one sketch from all of `S` and building a
sub-sketch per partition class then merging them all are the same computation —
for each partition they yield equal `Option` results (equal sketches when both
succeed, and the same panic otherwise), so `has_duplicate` results agree for every
element; and the no-false-negatives property holds on the merged sketch whenever it
exists. -/
theorem c2_merge_equivalence (mh : List Nat → Nat × Nat) (p r : Nat)
    (SS : List (List (List Nat))) :
    buildMerged mh p r SS = buildSingle mh p r SS.flatten ∧
    ∀ (T : DuplicatesSketch) (x : List Nat), buildMerged mh p r SS = some T →
      2 ≤ SS.flatten.count x → T.hasDuplicate mh x = some true := by
  have main : buildMerged mh p r SS = buildSingle mh p r SS.flatten := by
    by_cases hp : 1 ≤ p
    case neg =>
      have hnew : DuplicatesSketch.new p r = none := by
        unfold DuplicatesSketch.new
        rw [if_neg hp]
      unfold buildMerged buildSingle
      rw [hnew]
      rfl
    case pos =>
    unfold buildMerged buildSingle
    rw [new_eq p r hp]
    by_cases hW : 1 ≤ r / 4
    · exact fold_merge_sub mh p (r / 4) hW SS
        { probes := p, words := List.replicate (r / 4) 0 } rfl
        (by simp only [List.length_replicate]) (fun i => by rw [getD_replicate_zero]; norm_num)
    · have h0 : r / 4 = 0 := by omega
      rw [h0]
      exact (fold_merge_empty mh p hp SS).trans
        (insertAll_empty (s := { probes := p, words := List.replicate 0 0 }) rfl hp
          SS.flatten).symm
  refine ⟨main, ?_⟩
  intro T x hM hcount
  rw [main] at hM
  unfold buildSingle at hM
  by_cases hp : 1 ≤ p
  case neg =>
    unfold DuplicatesSketch.new at hM
    rw [if_neg hp] at hM
    cases hM
  case pos =>
  rw [new_eq p r hp] at hM
  have hM2 : insertAll mh { probes := p, words := List.replicate (r / 4) 0 }
      SS.flatten = some T := hM
  by_cases hW : 1 ≤ r / 4
  · exact nfn_core (by simp only [List.length_replicate]; omega) hcount hM2
  · have h0 : r / 4 = 0 := by omega
    rw [h0, insertAll_empty (s := { probes := p, words := List.replicate 0 0 }) rfl hp
      SS.flatten] at hM2
    by_cases hfl : SS.flatten = []
    · rw [hfl] at hcount
      simp at hcount
    · rw [if_neg hfl] at hM2
      cases hM2

theorem c2_witness :
    buildMerged mhZero 1 4 [[[]], [[]]] =
      buildSingle mhZero 1 4 [[[]], [[]]].flatten ∧
      DuplicatesSketch.hasDuplicate mhZero { probes := 1, words := [3] } [] =
        some true :=
  ⟨(c2_merge_equivalence mhZero 1 4 [[[]], [[]]]).1,
   (c2_merge_equivalence mhZero 1 4 [[[]], [[]]]).2 { probes := 1, words := [3] } []
     (by decide) (by decide)⟩

end SketchDuplicates
